import Mathlib

/-!
Verification of the image-discovery pipeline of `zillow_image_scraper.py`.

The Python source is shallowly embedded: each Python function becomes a Lean
function of the same name operating on `String` / `List Char`.  The Python
`re` patterns used by the scraper are fixed literal patterns; each one is
embedded as a dedicated scanning function whose semantics (leftmost match,
greedy repetition where backtracking is impossible) coincide with the
pattern's semantics on all inputs.  External collaborators (the HTML
element parser, `json.loads`, the network, the blob store, Python's `set`
iteration order) enter as explicit parameters or as clearly documented
models.
-/

namespace Scraper

/-- Character class of the pattern fragment `[a-f0-9]` (lowercase hex). -/
def isLowerHex (c : Char) : Bool :=
  (('a' ≤ c) && (c ≤ 'f')) || c.isDigit

/-- Take exactly `n` characters satisfying `p`; return them and the rest.
Embeds a fixed-width repetition such as `[a-f0-9]{32}` (no backtracking is
possible for a fixed count). -/
def takeExact (p : Char → Bool) : Nat → List Char → Option (List Char × List Char)
  | 0, cs => some ([], cs)
  | _ + 1, [] => none
  | n + 1, c :: cs =>
    if p c then (takeExact p n cs).map (fun r => (c :: r.1, r.2)) else none

/-- Numeric value of a digit string, as produced by Python `int` on the
digits captured by `(\d+)`. -/
def digitsToNat (ds : List Char) : Nat :=
  ds.foldl (fun a c => 10 * a + (c.toNat - '0'.toNat)) 0

/-- The literal marker `-cc_ft_` appearing in the scraper's patterns. -/
def ccMarker : List Char := ['-', 'c', 'c', '_', 'f', 't', '_']

/-- Extension alternatives of the group `(jpg|webp|png)`. -/
def extAlternatives : List (List Char) :=
  [['j', 'p', 'g'], ['w', 'e', 'b', 'p'], ['p', 'n', 'g']]

/-- First alternative of `(jpg|webp|png)` matching at the head of `cs`
(regex alternation is ordered). -/
def extAt (cs : List Char) : Option (List Char) :=
  extAlternatives.find? (fun e => e.isPrefixOf cs)

/-- Attempt to match `/([a-f0-9]{32})-cc_ft_\d+\.(jpg|webp|png)` at the head
of `cs`, returning the 32-hex capture group.  Embeds the body of the
`base_match` search in `filter_unique_images` (line 557). -/
def matchBaseAt (cs : List Char) : Option (List Char) :=
  match cs with
  | '/' :: rest =>
    match takeExact isLowerHex 32 rest with
    | some (hex, rest1) =>
      if ccMarker.isPrefixOf rest1 then
        let rest2 := rest1.drop ccMarker.length
        let ds := rest2.takeWhile Char.isDigit
        let rest3 := rest2.dropWhile Char.isDigit
        if ds.isEmpty then none
        else
          match rest3 with
          | '.' :: rest4 => if (extAt rest4).isSome then some hex else none
          | _ => none
      else none
    | none => none
  | _ => none

/-- Leftmost-match search (`re.search`) for the base-identifier pattern. -/
def searchBase : List Char → Option (List Char)
  | [] => none
  | c :: cs =>
    match matchBaseAt (c :: cs) with
    | some h => some h
    | none => searchBase cs

/-- The asset identity of a URL: group 1 of
`re.search(r'/([a-f0-9]{32})-cc_ft_\d+\.(jpg|webp|png)', url)`, or `none`
when the pattern does not occur (lines 557-559). -/
def base_id (url : String) : Option String :=
  (searchBase url.data).map String.mk

/-- Attempt to match `-cc_ft_(\d+)\.` at the head of `cs`, returning the
numeric value of the digit capture. -/
def matchResAt (cs : List Char) : Option Nat :=
  if ccMarker.isPrefixOf cs then
    let rest := cs.drop ccMarker.length
    let ds := rest.takeWhile Char.isDigit
    let rest2 := rest.dropWhile Char.isDigit
    if ds.isEmpty then none
    else
      match rest2 with
      | '.' :: _ => some (digitsToNat ds)
      | _ => none
  else none

/-- Leftmost-match search for the resolution pattern. -/
def searchRes : List Char → Option Nat
  | [] => none
  | c :: cs =>
    match matchResAt (c :: cs) with
    | some n => some n
    | none => searchRes cs

/-- The parsed resolution token of a URL:
`re.search(r'-cc_ft_(\d+)\.', url)` converted by `int`, or `none` when
absent (lines 600-602). -/
def resolution (url : String) : Option Nat :=
  searchRes url.data

/-- Resolution with the source's default: a URL with no parseable token is
assigned size 0 (line 606). -/
def resOf (url : String) : Nat :=
  (resolution url).getD 0

/-- Stable insertion into a list sorted by descending first component:
the new element goes before the first element whose key it is `≥`.
Together with `sortDescRes` this embeds Python's stable
`list.sort(key=lambda x: x[0], reverse=True)` (line 609). -/
def insertDesc (x : Nat × String) : List (Nat × String) → List (Nat × String)
  | [] => [x]
  | y :: ys => if y.1 ≤ x.1 then x :: y :: ys else y :: insertDesc x ys

/-- Stable descending sort by resolution (first component). -/
def sortDescRes : List (Nat × String) → List (Nat × String)
  | [] => []
  | x :: xs => insertDesc x (sortDescRes xs)

/-- Embeds `select_highest_resolution` (lines 585-614): pair every URL with
its resolution (0 when unparseable), stable-sort descending, return the
first.  On the empty list the Python code raises `IndexError` (both
`url_resolutions[0]` and the fallback `urls[0]` fail); that raise is
modelled as `none`. -/
def select_highest_resolution (urls : List String) : Option String :=
  match sortDescRes (urls.map (fun u => (resOf u, u))) with
  | [] => none
  | p :: _ => some p.2

/-- The `image_groups` dictionary of `filter_unique_images`: an
insertion-ordered association from key to list of URLs, exactly as a
Python `dict` iterated with `.items()`. -/
abbrev Groups := List (String × List String)

/-- Embeds `image_groups[base_id].append(url)` together with the
`base_id not in image_groups` initialisation (lines 559-562): append `u`
to the group of key `k`, creating the group at the end when absent. -/
def appendToKey : Groups → String → String → Groups
  | [], k, u => [(k, [u])]
  | g :: gs, k, u =>
    if g.1 = k then (g.1, g.2 ++ [u]) :: gs else g :: appendToKey gs k u

/-- Embeds `image_groups[url] = [url]` (line 565): overwrite the value at
key `u` with the singleton `[u]`, keeping the key's dictionary position,
or append the entry at the end when the key is new. -/
def setKey : Groups → String → Groups
  | [], u => [(u, [u])]
  | g :: gs, u =>
    if g.1 = u then (g.1, [u]) :: gs else g :: setKey gs u

/-- The grouping loop of `filter_unique_images` (lines 554-565), threading
the dictionary. -/
def buildGroups : List String → Groups → Groups
  | [], gs => gs
  | u :: us, gs =>
    match base_id u with
    | some k => buildGroups us (appendToKey gs k u)
    | none => buildGroups us (setKey gs u)

/-- The per-group selection of `filter_unique_images` (lines 569-576):
groups of exactly one member pass through, larger groups go through
`select_highest_resolution`.  A `none` result only arises from an empty
group, which the grouping loop never produces. -/
def pickGroup (vs : List String) : Option String :=
  if vs.length = 1 then vs.head? else select_highest_resolution vs

/-- Embeds `filter_unique_images` (lines 540-582): group the URLs by asset
identity (non-matching URLs keyed by themselves), then keep one URL per
group in dictionary insertion order.  The `except` fallback of the Python
code is unreachable (its only possible trigger is
`select_highest_resolution` on an empty group, and groups are never
empty), so it is not part of the model. -/
def filter_unique_images (xs : List String) : List String :=
  (buildGroups xs []).filterMap (fun g => pickGroup g.2)

/-! ### URL classifier (`is_image_url`, lines 223-257) -/

/-- Python `str.lower()` on the ASCII strings this pipeline handles
(`Char.toLower` lowercases exactly `A`-`Z`), written over the character
list so that kernel reduction can evaluate it. -/
def asciiLower (s : String) : String := String.mk (s.data.map Char.toLower)

/-- Substring occurrence test, embedding Python's `pat in hay`. -/
def containsSub (pat : List Char) : List Char → Bool
  | [] => pat.isEmpty
  | c :: t => pat.isPrefixOf (c :: t) || containsSub pat t

/-- The extension substrings checked by `is_image_url` (line 237). -/
def image_extensions : List (List Char) :=
  [['.', 'j', 'p', 'g'], ['.', 'j', 'p', 'e', 'g'], ['.', 'p', 'n', 'g'],
   ['.', 'g', 'i', 'f'], ['.', 'w', 'e', 'b', 'p'], ['.', 'b', 'm', 'p'],
   ['.', 't', 'i', 'f', 'f']]

/-- Alternatives of the group `(jpg|jpeg|png|gif|webp|bmp|tiff)` in the first
heuristic pattern (line 247). -/
def extsSeven : List (List Char) :=
  [['j', 'p', 'g'], ['j', 'p', 'e', 'g'], ['p', 'n', 'g'], ['g', 'i', 'f'],
   ['w', 'e', 'b', 'p'], ['b', 'm', 'p'], ['t', 'i', 'f', 'f']]

/-- Alternatives of the group `(jpg|jpeg|png|gif|webp)` in the host-heuristic
patterns (lines 248-250). -/
def extsFive : List (List Char) :=
  [['j', 'p', 'g'], ['j', 'p', 'e', 'g'], ['p', 'n', 'g'], ['g', 'i', 'f'],
   ['w', 'e', 'b', 'p']]

/-- A `\.(alt|...)` fragment matches at the head of `cs`. -/
def dotExtAt (exts : List (List Char)) : List Char → Bool
  | '.' :: r => exts.any (fun e => e.isPrefixOf r)
  | _ => false

/-- `re.search` for a bare `\.(alt|...)` pattern. -/
def searchDotExt (exts : List (List Char)) : List Char → Bool
  | [] => false
  | c :: t => dotExtAt exts (c :: t) || searchDotExt exts t

/-- Scan forward for a `\.(alt|...)` match without crossing a newline:
embeds the `.*` of `word.*\.(alt|...)`, where `.` does not match `\n`. -/
def scanDotExtNoNL (exts : List (List Char)) : List Char → Bool
  | [] => false
  | c :: t => dotExtAt exts (c :: t) || (c ≠ '\n' && scanDotExtNoNL exts t)

/-- `re.search` for `word.*\.(alt|...)`: some occurrence of `word` followed,
with no intervening newline, by a dot-extension match. -/
def searchWordThenExt (w : List Char) (exts : List (List Char)) : List Char → Bool
  | [] => false
  | c :: t =>
    (w.isPrefixOf (c :: t) && scanDotExtNoNL exts ((c :: t).drop w.length))
      || searchWordThenExt w exts t

/-- Embeds `is_image_url` (lines 223-257) on string input: empty strings are
rejected up front (`not url`), then the lowercased URL is checked for an
image-extension substring and for the four regex heuristics. -/
def is_image_url (url : String) : Bool :=
  if url.isEmpty then false
  else
    let lower := (asciiLower url).data
    if image_extensions.any (fun e => containsSub e lower) then true
    else
      searchDotExt extsSeven lower
        || searchWordThenExt ['z', 'i', 'l', 'l', 'o', 'w'] extsFive lower
        || searchWordThenExt ['p', 'h', 'o', 't', 'o', 's'] extsFive lower
        || searchWordThenExt ['i', 'm', 'a', 'g', 'e', 's'] extsFive lower

/-- Embeds `is_image_url` on an arbitrary Python value: `none` stands for any
non-string argument, rejected by the `isinstance(url, str)` guard
(line 233) without raising. -/
def is_image_url_of : Option String → Bool
  | none => false
  | some s => is_image_url s

/-! ### Markup fallback extractor (`extract_images_from_html`, lines 450-537)

The element-based candidate sources (lines 464-520: `img` attributes,
`picture`/`source` srcsets, `background-image` styles, `data-src`
attributes) go through the external `BeautifulSoup` HTML parser; the URLs
they contribute enter the model as the explicit `soupUrls` parameter.  For
a markup document with no recognizable `img`/`picture`/style-background
elements that parameter is `[]`.  The raw-text CDN scan (lines 522-529)
operates on the markup string directly and is embedded in full. -/

/-- The literal head of the photo-CDN pattern (line 523). -/
def cdnHeadStr : String := "https://photos.zillowstatic.com/fp/"

/-- The same head as a character list. -/
def cdnHead : List Char := cdnHeadStr.data

/-- Attempt to match
`https://photos\.zillowstatic\.com/fp/([a-f0-9]{32})-cc_ft_\d+\.(jpg|webp|png)`
at the head of `cs`; on success return the two capture groups and the
remainder of the text after the match. -/
def matchCdnAt (cs : List Char) : Option (List Char × List Char × List Char) :=
  if cdnHead.isPrefixOf cs then
    let r1 := cs.drop cdnHead.length
    match takeExact isLowerHex 32 r1 with
    | some (hex, r2) =>
      if ccMarker.isPrefixOf r2 then
        let r3 := r2.drop ccMarker.length
        let ds := r3.takeWhile Char.isDigit
        let r4 := r3.dropWhile Char.isDigit
        if ds.isEmpty then none
        else
          match r4 with
          | '.' :: r5 =>
            match extAt r5 with
            | some e => some (hex, e, r5.drop e.length)
            | none => none
          | _ => none
      else none
    | none => none
  else none

/-- `re.findall` for the CDN pattern: leftmost non-overlapping matches, each
scan resuming after the previous match.  The fuel argument bounds the
recursion; every step consumes at least one character, so fuel equal to
the text length never runs out. -/
def findAllCdnAux : Nat → List Char → List (List Char × List Char)
  | 0, _ => []
  | _ + 1, [] => []
  | fuel + 1, c :: cs =>
    match matchCdnAt (c :: cs) with
    | some (h, e, rest) => (h, e) :: findAllCdnAux fuel rest
    | none => findAllCdnAux fuel cs

/-- All CDN-pattern matches in a text (line 524). -/
def findAllCdn (cs : List Char) : List (List Char × List Char) :=
  findAllCdnAux cs.length cs

/-- The synthesized maximum-resolution URL
`f"https://photos.zillowstatic.com/fp/{base_id}-cc_ft_1536.{extension}"`
(line 528). -/
def synthMax (h e : List Char) : String :=
  cdnHeadStr ++ String.mk h ++ "-cc_ft_1536." ++ String.mk e

/-- The raw-text CDN scan of `extract_images_from_html` (lines 522-529). -/
def zillowPhotoScan (html : String) : List String :=
  (findAllCdn html.data).map (fun p => synthMax p.1 p.2)

/-- Embeds `extract_images_from_html` (lines 450-537): element-derived
candidates (the `soupUrls` parameter, see the section comment) followed by
the synthesized CDN-scan URLs, deduplicated by `filter_unique_images`. -/
def extract_images_from_html (soupUrls : List String) (html : String) : List String :=
  filter_unique_images (soupUrls ++ zillowPhotoScan html)

/-! ### Fetch/upload orchestrator (`download_and_upload_to_s3`, lines 334-402)

The network fetch (`requests.get` + `raise_for_status`, lines 369-370) is
the parameter `fetch`: `Except.error e` stands for a raised request
exception with message `e`, `Except.ok body` for a successful response
body.  The blob-store upload (`upload_to_s3`, line 383) is the parameter
`putOk` giving the boolean outcome of the `put_object` call.  The model
covers the path on which `get_s3_client()` succeeded (line 350); the
empty-input early return (lines 346-347) happens before that call and is
part of the model.  Progress output is dropped, except the per-item
failure lines (lines 389, 392), which are collected as the error log: they
are the only place the loop records an item's failure detail. -/

/-- Python `f"{i:03d}"`: decimal digits zero-padded to width 3. -/
def pad3 (n : Nat) : String :=
  let s := toString n
  if s.length < 3 then String.mk (List.replicate (3 - s.length) '0') ++ s else s

/-- Helper for `urlPath`: find `://`, then keep everything from the first
later `/` (the host is skipped, the path kept). -/
def urlPathAfterScheme : List Char → List Char
  | [] => []
  | ':' :: '/' :: '/' :: rest => rest.dropWhile (fun c => c ≠ '/')
  | _ :: t => urlPathAfterScheme t

/-- The path component of `urlparse(url)` for the absolute URLs the
orchestrator receives: text after the `scheme://host` part up to the first
`?` or `#`; a URL with no `://` or no `/` after the host has an empty
path.  Model of the external `urllib.parse.urlparse` restricted to this
use (line 373). -/
def urlPath (url : String) : List Char :=
  urlPathAfterScheme ((url.data.takeWhile (fun c => c ≠ '#')).takeWhile (fun c => c ≠ '?'))

/-- `os.path.basename`: the text after the last `/` (line 374). -/
def basenameOf (cs : List Char) : List Char :=
  (cs.reverse.takeWhile (fun c => c ≠ '/')).reverse

/-- The destination filename for the `i`-th URL (1-based): the basename of
the URL path, or the synthetic `image_{i:03d}.jpg` when that basename is
empty or has no dot (lines 374-377). -/
def filenameFor (i : Nat) (url : String) : String :=
  let fn := basenameOf (urlPath url)
  if fn.isEmpty || !fn.contains '.' then "image_" ++ pad3 i ++ ".jpg"
  else String.mk fn

/-- Summary dictionary returned by `download_and_upload_to_s3`.  The
`bucket` and `listing_id` fields are `none` exactly when the Python dict
omits those keys (the empty-input return of line 347 carries only
`success`, `total` and `s3_urls`). -/
structure S3Summary where
  success : Nat
  total : Nat
  s3_urls : List String
  bucket : Option String
  listing_id : Option String
deriving DecidableEq, Repr

/-- The per-URL loop of `download_and_upload_to_s3` (lines 364-392),
returning (uploaded count, S3 URLs, failure log lines) for the URLs from
index `i` on. -/
def uploadLoop (fetch : String → Except String (List Nat))
    (putOk : String → List Nat → Bool) (listing_id bucket : String) :
    Nat → List String → Nat × List String × List String
  | _, [] => (0, [], [])
  | i, url :: rest =>
    match fetch url with
    | Except.error e =>
      let r := uploadLoop fetch putOk listing_id bucket (i + 1) rest
      (r.1, r.2.1, ("✗ Error processing " ++ url ++ ": " ++ e) :: r.2.2)
    | Except.ok body =>
      let fname := filenameFor i url
      let key := "listings/" ++ listing_id ++ "/" ++ fname
      if putOk key body then
        let r := uploadLoop fetch putOk listing_id bucket (i + 1) rest
        (r.1 + 1, ("https://" ++ bucket ++ ".s3.amazonaws.com/" ++ key) :: r.2.1, r.2.2)
      else
        let r := uploadLoop fetch putOk listing_id bucket (i + 1) rest
        (r.1, r.2.1, ("✗ Failed to upload: " ++ fname) :: r.2.2)

/-- Embeds `download_and_upload_to_s3` (lines 334-402) on the S3 path,
together with its failure log.  `bucket_name = none` or an empty name
falls back to the environment default `envBucket` (line 357). -/
def download_and_upload_to_s3 (fetch : String → Except String (List Nat))
    (putOk : String → List Nat → Bool) (urls : List String)
    (listing_id : String) (bucket_name : Option String) (envBucket : String) :
    S3Summary × List String :=
  if urls.isEmpty then
    ({ success := 0, total := 0, s3_urls := [], bucket := none, listing_id := none }, [])
  else
    let bucket :=
      match bucket_name with
      | some b => if b.isEmpty then envBucket else b
      | none => envBucket
    let r := uploadLoop fetch putOk listing_id bucket 1 urls
    ({ success := r.1, total := urls.length, s3_urls := r.2.1,
       bucket := some bucket, listing_id := some listing_id }, r.2.2)

/-! ### JSON values and a model of `json.loads`

Parsed JSON payloads are represented by the `Json` inductive.  The
external `json.loads` enters the extractor as a `loads` parameter; the
concrete instantiation used in the theorems is `jsonLoads`, a recursive
descent parser for the JSON subset the scraper's payloads exercise
(strings without escape sequences, integer numbers); on anything outside
that subset it returns `none`, the model of `json.JSONDecodeError`. -/

/-- A parsed JSON value.  Objects keep their fields in insertion order,
mirroring a Python `dict`. -/
inductive Json where
  | null
  | bool (b : Bool)
  | num (n : Int)
  | str (s : String)
  | arr (elems : List Json)
  | obj (fields : List (String × Json))
deriving Repr

/-- Whitespace characters skipped by the JSON parser and matched by the
regex class `\s` (Python: space, tab, newline, carriage return, form
feed, vertical tab). -/
def reWs (c : Char) : Bool :=
  c = ' ' || c = '\t' || c = '\n' || c = '\r' || c = '\x0c' || c = '\x0b'

/-- Drop leading whitespace. -/
def skipWs (cs : List Char) : List Char := cs.dropWhile reWs

/-- Body of a JSON string after the opening quote: the characters up to the
closing quote.  A backslash (escape sequences are outside the modelled
subset) or an unterminated string fails. -/
def parseStrBody : List Char → Option (List Char × List Char)
  | [] => none
  | '"' :: rest => some ([], rest)
  | '\\' :: _ => none
  | c :: rest => (parseStrBody rest).map (fun p => (c :: p.1, p.2))

/-- Digits of a JSON integer; a fraction or exponent (floats are outside
the modelled subset) fails. -/
def parseNatPart (cs : List Char) : Option (Nat × List Char) :=
  let ds := cs.takeWhile Char.isDigit
  let rest := cs.dropWhile Char.isDigit
  if ds.isEmpty then none
  else
    match rest with
    | '.' :: _ => none
    | 'e' :: _ => none
    | 'E' :: _ => none
    | _ => some (digitsToNat ds, rest)

/-- A JSON integer with optional sign. -/
def parseNum (cs : List Char) : Option (Int × List Char) :=
  match cs with
  | '-' :: rest => (parseNatPart rest).map (fun p => (-(p.1 : Int), p.2))
  | _ => (parseNatPart cs).map (fun p => ((p.1 : Int), p.2))

/-- Overwrite-or-append assignment into an ordered field list: how a Python
`dict` treats a repeated key (first position, last value). -/
def setField : List (String × Json) → String → Json → List (String × Json)
  | [], k, v => [(k, v)]
  | f :: fs, k, v => if f.1 = k then (k, v) :: fs else f :: setField fs k v

/-- Successive dict assignments from an ordered pair list. -/
def objOfPairs (ps : List (String × Json)) : List (String × Json) :=
  ps.foldl (fun acc p => setField acc p.1 p.2) []

mutual

/-- Parse a JSON value at the head of the text (leading whitespace
allowed), returning it with the unconsumed remainder. -/
def parseVal : Nat → List Char → Option (Json × List Char)
  | 0, _ => none
  | fuel + 1, cs =>
    match skipWs cs with
    | '{' :: rest =>
      let cs2 := skipWs rest
      match cs2 with
      | '}' :: r2 => some (Json.obj [], r2)
      | _ => (parseObjLoop fuel cs2).map (fun p => (Json.obj (objOfPairs p.1), p.2))
    | '[' :: rest =>
      let cs2 := skipWs rest
      match cs2 with
      | ']' :: r2 => some (Json.arr [], r2)
      | _ => (parseArrLoop fuel cs2).map (fun p => (Json.arr p.1, p.2))
    | '"' :: rest => (parseStrBody rest).map (fun p => (Json.str (String.mk p.1), p.2))
    | 't' :: rest =>
      if ['r', 'u', 'e'].isPrefixOf rest then some (Json.bool true, rest.drop 3) else none
    | 'f' :: rest =>
      if ['a', 'l', 's', 'e'].isPrefixOf rest then some (Json.bool false, rest.drop 4) else none
    | 'n' :: rest =>
      if ['u', 'l', 'l'].isPrefixOf rest then some (Json.null, rest.drop 3) else none
    | cs1 => (parseNum cs1).map (fun p => (Json.num p.1, p.2))

/-- Parse the comma-separated elements of a non-empty array, consuming the
closing bracket. -/
def parseArrLoop : Nat → List Char → Option (List Json × List Char)
  | 0, _ => none
  | fuel + 1, cs =>
    match parseVal fuel cs with
    | none => none
    | some (v, rest) =>
      match skipWs rest with
      | ',' :: rest2 => (parseArrLoop fuel rest2).map (fun p => (v :: p.1, p.2))
      | ']' :: rest2 => some ([v], rest2)
      | _ => none

/-- Parse the comma-separated fields of a non-empty object, consuming the
closing brace. -/
def parseObjLoop : Nat → List Char → Option (List (String × Json) × List Char)
  | 0, _ => none
  | fuel + 1, cs =>
    match skipWs cs with
    | '"' :: rest =>
      match parseStrBody rest with
      | none => none
      | some (k, rest1) =>
        match skipWs rest1 with
        | ':' :: rest2 =>
          match parseVal fuel rest2 with
          | none => none
          | some (v, rest3) =>
            match skipWs rest3 with
            | ',' :: rest4 =>
              (parseObjLoop fuel rest4).map (fun p => ((String.mk k, v) :: p.1, p.2))
            | '}' :: rest4 => some ([(String.mk k, v)], rest4)
            | _ => none
        | _ => none
    | _ => none

end

/-- Model of `json.loads` on the subset described above: parse one value
and require only whitespace to remain. -/
def jsonLoads (s : String) : Option Json :=
  match parseVal (2 * s.length + 2) s.data with
  | some (j, rest) => if (skipWs rest).isEmpty then some j else none
  | none => none

/-! ### Structured-data extractor (`extract_json_from_page`, lines 103-180)

The external `BeautifulSoup` pass that locates script elements is
abstracted into two parameters: `typedScripts`, the text of script blocks
declared `type="application/json"` (method 1), and `allScripts`, the text
of all script blocks (methods 2 and 3); script elements without text are
skipped by the source (`if script.string`) and are simply absent from the
lists. -/

/-- Python `key in json_data` at the top level of a parsed payload:
key membership for a dict, element membership for a list, substring test
for a string.  `none` models the `TypeError` raised on a number, boolean
or `None` payload, which no inner handler of the source catches. -/
def pyInTop (j : Json) (k : String) : Option Bool :=
  match j with
  | Json.obj kvs => some (kvs.any (fun f => f.1 == k))
  | Json.arr js =>
    some (js.any (fun x =>
      match x with
      | Json.str s => s == k
      | _ => false))
  | Json.str s => some (containsSub k.data s.data)
  | _ => none

/-- Method 1 (lines 117-124): the first typed script whose payload parses
and has a `photoGallery` or `images` top-level key.  `Except.error`
models a `TypeError` escaping to the outer handler of line 178. -/
def method1 (loads : String → Option Json) : List String → Except Unit (Option Json)
  | [] => Except.ok none
  | s :: rest =>
    match loads s with
    | none => method1 loads rest
    | some j =>
      match pyInTop j "photoGallery" with
      | none => Except.error ()
      | some true => Except.ok (some j)
      | some false =>
        match pyInTop j "images" with
        | none => Except.error ()
        | some true => Except.ok (some j)
        | some false => method1 loads rest

/-- Find the minimal run of characters ended by `};` (the non-greedy
`.*?` of `({.*?});` under `re.DOTALL`), returning the run and the text
after the `;`. -/
def takeToBraceSemi : List Char → Option (List Char × List Char)
  | '}' :: ';' :: rest => some ([], rest)
  | c :: rest => (takeToBraceSemi rest).map (fun p => (c :: p.1, p.2))
  | [] => none

/-- Find the minimal run of characters ended by `]` (the non-greedy `.*?`
of `(\[.*?\])` under `re.DOTALL`), returning the run and the text after
the `]`. -/
def takeToBracket : List Char → Option (List Char × List Char)
  | ']' :: rest => some ([], rest)
  | c :: rest => (takeToBracket rest).map (fun p => (c :: p.1, p.2))
  | [] => none

/-- Attempt to match `head\s*=\s*({.*?});` at the current position,
returning the brace-delimited capture group and the text after the full
match. -/
def matchStateAt (head : List Char) (cs : List Char) : Option (List Char × List Char) :=
  if head.isPrefixOf cs then
    let r1 := (cs.drop head.length).dropWhile reWs
    match r1 with
    | '=' :: r2 =>
      match r2.dropWhile reWs with
      | '{' :: body => (takeToBraceSemi body).map (fun p => ('{' :: p.1 ++ ['}'], p.2))
      | _ => none
    | _ => none
  else none

/-- Attempt to match `head\s*(\[.*?\])` at the current position, returning
the bracket-delimited capture group and the text after the match. -/
def matchArrKeyAt (head : List Char) (cs : List Char) : Option (List Char × List Char) :=
  if head.isPrefixOf cs then
    match (cs.drop head.length).dropWhile reWs with
    | '[' :: body => (takeToBracket body).map (fun p => ('[' :: p.1 ++ [']'], p.2))
    | _ => none
  else none

/-- `re.findall` driver: leftmost non-overlapping matches of a
position-anchored matcher, resuming after each match.  Fuel equal to the
text length suffices, every step consuming at least one character. -/
def findFragsAux (matchAt : List Char → Option (List Char × List Char)) :
    Nat → List Char → List (List Char)
  | 0, _ => []
  | _ + 1, [] => []
  | fuel + 1, c :: cs =>
    match matchAt (c :: cs) with
    | some (frag, rest) => frag :: findFragsAux matchAt fuel rest
    | none => findFragsAux matchAt fuel cs

/-- All matches of a position-anchored matcher in a text. -/
def findFrags (matchAt : List Char → Option (List Char × List Char))
    (cs : List Char) : List (List Char) :=
  findFragsAux matchAt cs.length cs

/-- The global-state assignment heads of method 2's patterns 1-4
(lines 134-137), in source order. -/
def stateVarHeads : List (List Char) :=
  [String.data "window.__INITIAL_STATE__", String.data "window.__APP_STATE__",
   String.data "window.__PRELOADED_STATE__", String.data "window.__APOLLO_STATE__"]

/-- The photo-collection key heads of method 2's patterns 5-8
(lines 138-141), in source order. -/
def arrayKeyHeads : List (List Char) :=
  [String.data "\"photoGallery\":", String.data "\"images\":",
   String.data "\"photos\":", String.data "\"media\":"]

/-- The candidate fragments of one script under method 2, in pattern-major
order as the nested source loops produce them (lines 144-146). -/
def method2Frags (s : List Char) : List (List Char) :=
  (stateVarHeads.map (fun h => findFrags (matchStateAt h) s)).flatten
    ++ (arrayKeyHeads.map (fun h => findFrags (matchArrKeyAt h) s)).flatten

/-- Python `isinstance(item, dict) and ('url' in item or 'href' in item or
'src' in item)` (line 157). -/
def itemLooksImage : Json → Bool
  | Json.obj kvs => kvs.any (fun f => f.1 == "url" || f.1 == "href" || f.1 == "src")
  | _ => false

/-- Top-level key membership on an object payload (the `in` checks of
method 2 and method 3, which only ever apply to parsed `{...}`
fragments). -/
def jsonHasKey (j : Json) (k : String) : Bool :=
  match j with
  | Json.obj kvs => kvs.any (fun f => f.1 == k)
  | _ => false

/-- Acceptance test for one method-2 fragment (lines 147-158): a brace
fragment must parse and carry a photo-collection key; a bracket fragment
must parse to a non-empty list with an image-looking dict element, and is
wrapped as `{'images': ...}`. -/
def fragAccept (loads : String → Option Json) (frag : List Char) : Option Json :=
  match frag with
  | '{' :: _ =>
    match loads (String.mk frag) with
    | some j =>
      if jsonHasKey j "photoGallery" || jsonHasKey j "images" || jsonHasKey j "photos" then
        some j
      else none
    | none => none
  | '[' :: _ =>
    match loads (String.mk frag) with
    | some (Json.arr items) =>
      if !items.isEmpty && items.any itemLooksImage then
        some (Json.obj [("images", Json.arr items)])
      else none
    | _ => none
  | _ => none

/-- First element of a list on which `f` succeeds. -/
def firstSome {α β : Type} (f : α → Option β) : List α → Option β
  | [] => none
  | a :: rest =>
    match f a with
    | some b => some b
    | none => firstSome f rest

/-- Method 2 (lines 127-160): scan every script against the eight
patterns, accepting the first valid fragment. -/
def method2 (loads : String → Option Json) (scripts : List String) : Option Json :=
  firstSome (fun s => firstSome (fragAccept loads) (method2Frags s.data)) scripts

/-- The quoted key alternatives of method 3's fragment pattern
(line 167). -/
def method3Keys : List (List Char) :=
  [String.data "\"url\"", String.data "\"href\"", String.data "\"src\"",
   String.data "\"photo\"", String.data "\"image\""]

/-- Attempt to match `\{[^{}]*(?:"url"|"href"|"src"|"photo"|"image")[^{}]*\}`
at the current position: a brace, a run of non-brace characters containing
one of the quoted keys, a closing brace. -/
def matchFlatAt (cs : List Char) : Option (List Char × List Char) :=
  match cs with
  | '{' :: rest =>
    let span := rest.takeWhile (fun c => c ≠ '{' && c ≠ '}')
    match rest.dropWhile (fun c => c ≠ '{' && c ≠ '}') with
    | '}' :: r3 =>
      if method3Keys.any (fun k => containsSub k span) then
        some ('{' :: span ++ ['}'], r3)
      else none
    | _ => none
  | _ => none

/-- Method 3's per-payload key test:
`any(key in json_data for key in ['url','href','src','photo','image'])`
on a parsed `{...}` fragment (line 171). -/
def method3AnyKey (j : Json) : Bool :=
  jsonHasKey j "url" || jsonHasKey j "href" || jsonHasKey j "src"
    || jsonHasKey j "photo" || jsonHasKey j "image"

/-- Method 3 (lines 162-174): scripts mentioning `photo` or `image` are
scanned for small flat JSON objects with a URL-like key; the first one
that parses and has such a key is returned. -/
def method3 (loads : String → Option Json) (scripts : List String) : Option Json :=
  firstSome (fun s =>
    if containsSub (String.data "photo") (asciiLower s).data
        || containsSub (String.data "image") (asciiLower s).data then
      firstSome (fun frag =>
        match loads (String.mk frag) with
        | some j => if method3AnyKey j then some j else none
        | none => none) (findFrags matchFlatAt s.data)
    else none) scripts

/-- Embeds `extract_json_from_page` (lines 103-180): methods 1-3 in
priority order; a `TypeError` escaping method 1 reaches the outer
`except Exception` handler, which returns `None`. -/
def extract_json_from_page (loads : String → Option Json)
    (typedScripts allScripts : List String) : Option Json :=
  match method1 loads typedScripts with
  | Except.error _ => none
  | Except.ok (some j) => some j
  | Except.ok none =>
    match method2 loads allScripts with
    | some j => some j
    | none => method3 loads allScripts

/-! ### Image-URL walk (`extract_image_urls`, lines 183-220)

The final `list(set(image_urls))` of line 220 iterates a Python `set` of
strings, whose order depends on the per-process string hash seed; it
enters the model as the `setList` parameter, constrained only by
`SetModel` (the output is duplicate-free and has exactly the members of
the input). -/

/-- The photo-collection key list of line 199, exactly as written in the
source: the keys are compared against `key.lower()`, so the entry
`photoGallery` (with its capital G) can never match. -/
def photoCollectionKeys : List String :=
  ["photoGallery", "images", "photos", "pictures"]

/-- The prioritized URL field names of line 204. -/
def urlFieldNames : List String :=
  ["url", "href", "src", "imageUrl", "photoUrl"]

/-- Field lookup in a parsed object. -/
def lookupField (kvs : List (String × Json)) (k : String) : Option Json :=
  (kvs.find? (fun f => f.1 == k)).map Prod.snd

/-- The URL fields harvested from one item dict (lines 204-206): every
present, truthy field in `urlFieldNames` order.  The source appends the
raw field value; payloads whose URL fields are not strings are outside
the model, and the empty string is falsy and skipped. -/
def fieldUrls (kvs : List (String × Json)) : List String :=
  urlFieldNames.filterMap (fun f =>
    match lookupField kvs f with
    | some (Json.str s) => if s.isEmpty then none else some s
    | _ => none)

mutual

/-- The recursive `search_for_images` walk (lines 195-217), collecting
URLs in append order. -/
def collectImages : Json → List String
  | Json.obj kvs => collectFields kvs
  | Json.arr js => collectList js
  | Json.str s => if is_image_url s then [s] else []
  | _ => []

/-- Walk the fields of a dict: photo-collection keys have their list
items harvested (lines 199-208) or their string value classified
(lines 209-210); all other values are recursed into (line 212). -/
def collectFields : List (String × Json) → List String
  | [] => []
  | (k, v) :: rest =>
    (if photoCollectionKeys.contains (asciiLower k) then
      match v with
      | Json.arr items => collectPhotoItems items
      | Json.str s => if is_image_url s then [s] else []
      | _ => []
    else collectImages v) ++ collectFields rest

/-- Walk the items of a photo-collection list: dict items contribute their
URL fields and are then recursed into (lines 201-208); other items are
skipped. -/
def collectPhotoItems : List Json → List String
  | [] => []
  | Json.obj kvs :: rest => (fieldUrls kvs ++ collectFields kvs) ++ collectPhotoItems rest
  | _ :: rest => collectPhotoItems rest

/-- Walk the items of a generic list (lines 213-215). -/
def collectList : List Json → List String
  | [] => []
  | j :: rest => collectImages j ++ collectList rest

end

/-- A valid behaviour of Python's `list(set(xs))` on strings: some
duplicate-free enumeration of the members of `xs`.  The actual
enumeration order is decided by the interpreter's randomized string
hashing, not by `xs`. -/
def SetModel (f : List String → List String) : Prop :=
  ∀ xs, (f xs).Nodup ∧ ∀ a, a ∈ f xs ↔ a ∈ xs

/-- One valid `list(set(...))` behaviour: keep the first occurrence of
each member, in first-occurrence order. -/
def dedupFirst : List String → List String
  | [] => []
  | x :: xs => x :: (dedupFirst xs).filter (fun y => y != x)

/-- Embeds `extract_image_urls` (lines 183-220): the recursive walk,
then `list(set(...))` as the `setList` parameter. -/
def extract_image_urls (setList : List String → List String) (j : Json) : List String :=
  setList (collectImages j)

/-- The extraction phase of `main` (lines 690-707): structured-data
extraction, then either the markup fallback (when nothing was found) or
deduplication of the structured results. -/
def pipelineImageUrls (loads : String → Option Json)
    (setList : List String → List String) (typedScripts allScripts : List String)
    (soupUrls : List String) (html : String) : List String :=
  match extract_json_from_page loads typedScripts allScripts with
  | some j =>
    let us := extract_image_urls setList j
    if us.isEmpty then extract_images_from_html soupUrls html
    else filter_unique_images us
  | none => extract_images_from_html soupUrls html

/-! ### Auxiliary notions for the statements and proofs -/

/-- The dictionary key `filter_unique_images` files a URL under: its asset
identity when the base pattern matches, the URL itself otherwise. -/
def keyOf (u : String) : String :=
  (base_id u).getD u

/-- The asset-identity group of `h` inside a candidate list: the candidates
whose `base_id` is `h`, in input order. -/
def groupOf (xs : List String) (h : String) : List String :=
  xs.filter (fun u => decide (base_id u = some h))

/-- No candidate without a parseable asset identity is literally equal to
the 32-hex identity of some candidate: under this condition the
self-keyed entries of the dictionary can never collide with an
identity-keyed group. -/
def keysDisjoint (xs : List String) : Bool :=
  xs.all (fun u =>
    (base_id u).isSome ||
    xs.all (fun v =>
      match base_id v with
      | some h => u != h
      | none => true))

/-- Dictionary lookup in the ordered group list. -/
def lookupKey : Groups → String → Option (List String)
  | [], _ => none
  | g :: gs, k => if g.1 = k then some g.2 else lookupKey gs k

/-- The invariant of the `image_groups` dictionary: keys are distinct,
every group is non-empty, and every member of a group is keyed by that
group's key. -/
def GroupsWF (gs : Groups) : Prop :=
  (gs.map Prod.fst).Nodup ∧ ∀ g ∈ gs, g.2 ≠ [] ∧ ∀ v ∈ g.2, keyOf v = g.1

/-! ### Concrete inputs used by the claim theorems -/

/-- A 32-hex identity consisting of `a` characters. -/
def hexA : String := "aaaaaaaaaaaaaaaaaaaaaaaaaaaaaaaa"

/-- A URL carrying the asset identity `hexA` at resolution 5. -/
def urlA5 : String := "/aaaaaaaaaaaaaaaaaaaaaaaaaaaaaaaa-cc_ft_5.jpg"

/-- The candidate list refuting claim C1: a matched URL followed by its
bare 32-hex identity. -/
def cexList : List String := [urlA5, hexA]

/-- A CDN URL family member at resolution 192. -/
def fam192 : String :=
  "https://photos.zillowstatic.com/fp/0123456789abcdef0123456789abcdef-cc_ft_192.jpg"

/-- A CDN URL family member at resolution 768. -/
def fam768 : String :=
  "https://photos.zillowstatic.com/fp/0123456789abcdef0123456789abcdef-cc_ft_768.jpg"

/-- A CDN URL family member at resolution 1536. -/
def fam1536 : String :=
  "https://photos.zillowstatic.com/fp/0123456789abcdef0123456789abcdef-cc_ft_1536.jpg"

/-- The shared identity of the `fam` URLs. -/
def famId : String := "0123456789abcdef0123456789abcdef"

/-- Markup exposing the three `cc_ft_` variants of one identity at sizes
192, 768 and 1536 (claim C4). -/
def markupC4 : String := fam192 ++ " " ++ fam768 ++ " " ++ fam1536

/-- A markup document with no embedded JSON and no recognizable image
elements (claim C9). -/
def htmlPlain : String := "<html><body>No images here</body></html>"

/-- A script block embedding the structured-data payload of claim C7. -/
def scriptC7 : String :=
  "var data = \x7b\"photos\":[\x7b\"url\":\"https://x/a.jpg\"\x7d,\x7b\"href\":\"https://x/b.png\"\x7d]\x7d;"

/-- A script block whose only candidate fragment (`[{]`) fails to parse
(claim C6). -/
def scriptBad : String := "var a = \"photos\": [\x7b];"

/-- The payload tree the structured-data extractor recovers from
`scriptC7`. -/
def payloadC7 : Json :=
  Json.obj [("images", Json.arr
    [Json.obj [("url", Json.str "https://x/a.jpg")],
     Json.obj [("href", Json.str "https://x/b.png")]])]

/-- The two URLs carried by the C7 payload. -/
def urlXa : String := "https://x/a.jpg"

/-- The second URL carried by the C7 payload. -/
def urlXb : String := "https://x/b.png"

/-! ## Lemmas: `select_highest_resolution` picks the first maximum -/

theorem insertDesc_cons (x y : Nat × String) (ys : List (Nat × String)) :
    insertDesc x (y :: ys) =
      if y.1 ≤ x.1 then x :: y :: ys else y :: insertDesc x ys := rfl

theorem mem_insertDesc {z x : Nat × String} {s : List (Nat × String)}
    (hz : z ∈ insertDesc x s) : z = x ∨ z ∈ s := by
  induction s with
  | nil => simpa [insertDesc] using hz
  | cons y ys ih =>
    rw [insertDesc_cons] at hz
    by_cases hle : y.1 ≤ x.1
    · simp only [if_pos hle, List.mem_cons] at hz
      rcases hz with h | h | h
      · exact Or.inl h
      · exact Or.inr (by simp [h])
      · exact Or.inr (by simp [h])
    · simp only [if_neg hle, List.mem_cons] at hz
      rcases hz with h | h
      · exact Or.inr (by simp [h])
      · rcases ih h with h' | h'
        · exact Or.inl h'
        · exact Or.inr (by simp [h'])

theorem mem_sortDescRes {z : Nat × String} {l : List (Nat × String)}
    (hz : z ∈ sortDescRes l) : z ∈ l := by
  induction l with
  | nil => simp [sortDescRes] at hz
  | cons x xs ih =>
    rw [show sortDescRes (x :: xs) = insertDesc x (sortDescRes xs) from rfl] at hz
    rcases mem_insertDesc hz with h | h
    · simp [h]
    · exact List.mem_cons_of_mem _ (ih h)

theorem insertDesc_ne_nil (x : Nat × String) (s : List (Nat × String)) :
    insertDesc x s ≠ [] := by
  cases s with
  | nil => simp [insertDesc]
  | cons y ys =>
    rw [insertDesc_cons]
    by_cases hle : y.1 ≤ x.1 <;> simp [hle]

theorem select_cons (u : String) (us : List String) :
    select_highest_resolution (u :: us) =
      match insertDesc (resOf u, u) (sortDescRes (us.map (fun v => (resOf v, v)))) with
      | [] => none
      | p :: _ => some p.2 := rfl

/-- On a non-empty list, `select_highest_resolution` returns the member
whose resolution is maximal, the first such member in list order: the
list splits around the returned member with every earlier member of
strictly smaller resolution. -/
theorem select_spec :
    ∀ l : List String, l ≠ [] →
      ∃ m pre suf, select_highest_resolution l = some m ∧
        l = pre ++ m :: suf ∧ (∀ v ∈ pre, resOf v < resOf m) ∧
        ∀ v ∈ l, resOf v ≤ resOf m := by
  intro l
  induction l with
  | nil => intro h; exact absurd rfl h
  | cons u us ih =>
    intro _
    cases us with
    | nil =>
      refine ⟨u, [], [], ?_, rfl, ?_, ?_⟩
      · simp [select_highest_resolution, sortDescRes, insertDesc]
      · intro v hv; simp at hv
      · intro v hv
        simp only [List.mem_singleton] at hv
        simp [hv]
    | cons w ws =>
      obtain ⟨m, pre, suf, hsel, hdec, hpre, hmax⟩ := ih (by simp)
      rcases hs : sortDescRes ((w :: ws).map (fun v => (resOf v, v))) with _ | ⟨q, t⟩
      · exact absurd hs (by
          have : (w :: ws).map (fun v => (resOf v, v)) = (resOf w, w) :: ws.map (fun v => (resOf v, v)) := rfl
          rw [show sortDescRes ((w :: ws).map (fun v => (resOf v, v))) =
              insertDesc (resOf w, w) (sortDescRes (ws.map (fun v => (resOf v, v)))) from rfl]
          exact insertDesc_ne_nil _ _)
      · have hq2 : q.2 = m := by
          have : select_highest_resolution (w :: ws) = some q.2 := by
            rw [select_cons]
            rw [show sortDescRes ((w :: ws).map (fun v => (resOf v, v))) =
                insertDesc (resOf w, w) (sortDescRes (ws.map (fun v => (resOf v, v)))) from rfl] at hs
            rw [show insertDesc (resOf w, w) (sortDescRes (ws.map (fun v => (resOf v, v)))) = q :: t from hs]
          rw [hsel] at this
          exact (Option.some_injective _ this.symm)
        have hq1 : q.1 = resOf q.2 := by
          have hqmem : q ∈ (w :: ws).map (fun v => (resOf v, v)) :=
            mem_sortDescRes (by rw [hs]; exact List.mem_cons_self _ _)
          obtain ⟨v, _, hv⟩ := List.mem_map.mp hqmem
          rw [← hv]
        rw [hq2] at hq1
        have hsel2 : select_highest_resolution (u :: w :: ws) =
            match insertDesc (resOf u, u) (q :: t) with
            | [] => none
            | p :: _ => some p.2 := by
          rw [select_cons, hs]
        by_cases hle : q.1 ≤ resOf u
        · refine ⟨u, [], w :: ws, ?_, rfl, ?_, ?_⟩
          · rw [hsel2, insertDesc_cons, if_pos hle]
          · intro v hv; simp at hv
          · intro v hv
            rcases List.mem_cons.mp hv with h | h
            · simp [h]
            · exact le_trans (hmax v h) (by rw [← hq1]; exact hle)
        · refine ⟨m, u :: pre, suf, ?_, ?_, ?_, ?_⟩
          · rw [hsel2, insertDesc_cons, if_neg hle]
            simp [hq2]
          · rw [hdec]; rfl
          · intro v hv
            rcases List.mem_cons.mp hv with h | h
            · rw [h, ← hq1]; exact lt_of_not_le hle
            · exact hpre v h
          · intro v hv
            rcases List.mem_cons.mp hv with h | h
            · rw [h, ← hq1]; exact le_of_lt (lt_of_not_le hle)
            · exact hmax v h

/-- `pickGroup` agrees with `select_highest_resolution` on every non-empty
group (a singleton group's fast path returns the same URL the sort
would). -/
theorem pickGroup_eq_select {vs : List String} (h : vs ≠ []) :
    pickGroup vs = select_highest_resolution vs := by
  cases vs with
  | nil => exact absurd rfl h
  | cons v vs' =>
    cases vs' with
    | nil => simp [pickGroup, select_highest_resolution, sortDescRes, insertDesc]
    | cons w ws => simp [pickGroup]

/-- `pickGroup` on a non-empty group succeeds and returns a member. -/
theorem pickGroup_total_mem {vs : List String} (h : vs ≠ []) :
    ∃ m, pickGroup vs = some m ∧ m ∈ vs := by
  obtain ⟨m, pre, suf, hsel, hdec, -, -⟩ := select_spec vs h
  exact ⟨m, by rw [pickGroup_eq_select h, hsel], by rw [hdec]; simp⟩

/-! ## Lemmas: the `image_groups` dictionary -/

theorem appendToKey_cons (g : String × List String) (gs : Groups) (k u : String) :
    appendToKey (g :: gs) k u =
      if g.1 = k then (g.1, g.2 ++ [u]) :: gs else g :: appendToKey gs k u := rfl

theorem setKey_cons (g : String × List String) (gs : Groups) (u : String) :
    setKey (g :: gs) u = if g.1 = u then (g.1, [u]) :: gs else g :: setKey gs u := rfl

theorem lookupKey_cons (g : String × List String) (gs : Groups) (h : String) :
    lookupKey (g :: gs) h = if g.1 = h then some g.2 else lookupKey gs h := rfl

theorem keys_appendToKey_sub {gs : Groups} {k u x : String}
    (hx : x ∈ (appendToKey gs k u).map Prod.fst) :
    x ∈ gs.map Prod.fst ∨ x = k := by
  induction gs with
  | nil =>
    simp [appendToKey] at hx
    exact Or.inr hx
  | cons g rest ih =>
    by_cases hk : g.1 = k
    · rw [appendToKey_cons, if_pos hk] at hx
      simp only [List.map_cons, List.mem_cons] at hx ⊢
      tauto
    · rw [appendToKey_cons, if_neg hk] at hx
      simp only [List.map_cons, List.mem_cons] at hx ⊢
      rcases hx with h | h
      · tauto
      · rcases ih h with h' | h' <;> tauto

theorem keys_setKey_sub {gs : Groups} {u x : String}
    (hx : x ∈ (setKey gs u).map Prod.fst) :
    x ∈ gs.map Prod.fst ∨ x = u := by
  induction gs with
  | nil =>
    simp [setKey] at hx
    exact Or.inr hx
  | cons g rest ih =>
    by_cases hk : g.1 = u
    · rw [setKey_cons, if_pos hk] at hx
      simp only [List.map_cons, List.mem_cons] at hx ⊢
      tauto
    · rw [setKey_cons, if_neg hk] at hx
      simp only [List.map_cons, List.mem_cons] at hx ⊢
      rcases hx with h | h
      · tauto
      · rcases ih h with h' | h' <;> tauto

theorem wf_appendToKey {k u : String} (hu : keyOf u = k) :
    ∀ {gs : Groups}, GroupsWF gs → GroupsWF (appendToKey gs k u) := by
  intro gs
  induction gs with
  | nil =>
    intro _
    refine ⟨by simp [appendToKey], ?_⟩
    intro g hg
    simp [appendToKey] at hg
    subst hg
    refine ⟨by simp, ?_⟩
    intro v hv
    simp at hv
    subst hv
    exact hu
  | cons g rest ih =>
    intro hwf
    obtain ⟨hnd, hmem⟩ := hwf
    rw [List.map_cons, List.nodup_cons] at hnd
    by_cases hk : g.1 = k
    · rw [appendToKey_cons, if_pos hk]
      refine ⟨by rw [List.map_cons, List.nodup_cons]; exact hnd, ?_⟩
      intro g' hg'
      rcases List.mem_cons.mp hg' with rfl | hg'
      · refine ⟨by simp, ?_⟩
        intro v hv
        rcases List.mem_append.mp hv with hv | hv
        · exact (hmem g (by simp)).2 v hv
        · simp at hv
          subst hv
          rw [hu, hk]
      · exact hmem g' (by simp [hg'])
    · rw [appendToKey_cons, if_neg hk]
      have hrest : GroupsWF rest := ⟨hnd.2, fun g' hg' => hmem g' (by simp [hg'])⟩
      obtain ⟨hnd', hmem'⟩ := ih hrest
      refine ⟨?_, ?_⟩
      · rw [List.map_cons, List.nodup_cons]
        refine ⟨?_, hnd'⟩
        intro hgin
        rcases keys_appendToKey_sub hgin with h | h
        · exact hnd.1 h
        · exact hk h
      · intro g' hg'
        rcases List.mem_cons.mp hg' with heq | hg'
        · rw [heq]
          exact hmem g (by simp)
        · exact hmem' g' hg'

theorem wf_setKey {u : String} (hu : keyOf u = u) :
    ∀ {gs : Groups}, GroupsWF gs → GroupsWF (setKey gs u) := by
  intro gs
  induction gs with
  | nil =>
    intro _
    refine ⟨by simp [setKey], ?_⟩
    intro g hg
    simp [setKey] at hg
    subst hg
    refine ⟨by simp, ?_⟩
    intro v hv
    simp at hv
    subst hv
    exact hu
  | cons g rest ih =>
    intro hwf
    obtain ⟨hnd, hmem⟩ := hwf
    rw [List.map_cons, List.nodup_cons] at hnd
    by_cases hk : g.1 = u
    · rw [setKey_cons, if_pos hk]
      refine ⟨by rw [List.map_cons, List.nodup_cons]; exact hnd, ?_⟩
      intro g' hg'
      rcases List.mem_cons.mp hg' with rfl | hg'
      · refine ⟨by simp, ?_⟩
        intro v hv
        simp at hv
        subst hv
        rw [hu, hk]
      · exact hmem g' (by simp [hg'])
    · rw [setKey_cons, if_neg hk]
      have hrest : GroupsWF rest := ⟨hnd.2, fun g' hg' => hmem g' (by simp [hg'])⟩
      obtain ⟨hnd', hmem'⟩ := ih hrest
      refine ⟨?_, ?_⟩
      · rw [List.map_cons, List.nodup_cons]
        refine ⟨?_, hnd'⟩
        intro hgin
        rcases keys_setKey_sub hgin with h | h
        · exact hnd.1 h
        · exact hk h
      · intro g' hg'
        rcases List.mem_cons.mp hg' with heq | hg'
        · rw [heq]
          exact hmem g (by simp)
        · exact hmem' g' hg'

theorem wf_buildGroups : ∀ (xs : List String) {gs : Groups},
    GroupsWF gs → GroupsWF (buildGroups xs gs) := by
  intro xs
  induction xs with
  | nil => intro gs hwf; exact hwf
  | cons u us ih =>
    intro gs hwf
    rcases hb : base_id u with _ | k
    · have : buildGroups (u :: us) gs = buildGroups us (setKey gs u) := by
        simp [buildGroups, hb]
      rw [this]
      exact ih (wf_setKey (by simp [keyOf, hb]) hwf)
    · have : buildGroups (u :: us) gs = buildGroups us (appendToKey gs k u) := by
        simp [buildGroups, hb]
      rw [this]
      exact ih (wf_appendToKey (by simp [keyOf, hb]) hwf)

theorem groupsWF_nil : GroupsWF [] := ⟨by simp, by simp⟩

theorem lookupKey_appendToKey (gs : Groups) (k u h : String) :
    lookupKey (appendToKey gs k u) h =
      if k = h then some ((lookupKey gs h).getD [] ++ [u]) else lookupKey gs h := by
  induction gs with
  | nil => by_cases hk : k = h <;> simp [appendToKey, lookupKey, hk]
  | cons g rest ih =>
    by_cases hgk : g.1 = k
    · rw [appendToKey_cons, if_pos hgk, lookupKey_cons, lookupKey_cons]
      by_cases hgh : g.1 = h
      · rw [if_pos hgh, if_pos hgh, if_pos (hgk.symm.trans hgh)]
        simp
      · rw [if_neg hgh, if_neg hgh, if_neg (fun hkh => hgh (hgk.trans hkh))]
    · rw [appendToKey_cons, if_neg hgk, lookupKey_cons]
      by_cases hgh : g.1 = h
      · rw [if_pos hgh, if_neg (fun hkh : k = h => hgk (hgh.trans hkh.symm)),
          lookupKey_cons, if_pos hgh]
      · rw [if_neg hgh, ih, lookupKey_cons, if_neg hgh]

theorem lookupKey_setKey (gs : Groups) (u h : String) :
    lookupKey (setKey gs u) h = if u = h then some [u] else lookupKey gs h := by
  induction gs with
  | nil => by_cases hk : u = h <;> simp [setKey, lookupKey, hk]
  | cons g rest ih =>
    by_cases hgu : g.1 = u
    · rw [setKey_cons, if_pos hgu, lookupKey_cons, lookupKey_cons]
      by_cases hgh : g.1 = h
      · rw [if_pos hgh, if_pos hgh, if_pos (hgu.symm.trans hgh)]
      · rw [if_neg hgh, if_neg hgh, if_neg (fun huh => hgh (hgu.trans huh))]
    · rw [setKey_cons, if_neg hgu, lookupKey_cons]
      by_cases hgh : g.1 = h
      · rw [if_pos hgh, if_neg (fun huh : u = h => hgu (hgh.trans huh.symm)),
          lookupKey_cons, if_pos hgh]
      · rw [if_neg hgh, ih, lookupKey_cons, if_neg hgh]

theorem buildGroups_lookup {h : String} :
    ∀ (xs : List String) (gs : Groups), (∀ u ∈ xs, base_id u = none → u ≠ h) →
      lookupKey (buildGroups xs gs) h =
        if groupOf xs h = [] then lookupKey gs h
        else some ((lookupKey gs h).getD [] ++ groupOf xs h) := by
  intro xs
  induction xs with
  | nil =>
    intro gs _
    simp [buildGroups, groupOf]
  | cons u us ih =>
    intro gs hno
    rcases hb : base_id u with _ | k
    · have hne : u ≠ h := hno u (by simp) hb
      have hstep : buildGroups (u :: us) gs = buildGroups us (setKey gs u) := by
        simp [buildGroups, hb]
      have hg : groupOf (u :: us) h = groupOf us h := by
        simp [groupOf, List.filter_cons, hb]
      rw [hstep, ih _ (fun v hv hbv => hno v (by simp [hv]) hbv), hg,
        lookupKey_setKey, if_neg hne]
    · by_cases hkh : k = h
      · subst hkh
        have hstep : buildGroups (u :: us) gs = buildGroups us (appendToKey gs k u) := by
          simp [buildGroups, hb]
        have hg : groupOf (u :: us) k = u :: groupOf us k := by
          simp [groupOf, List.filter_cons, hb]
        rw [hstep, ih _ (fun v hv hbv => hno v (by simp [hv]) hbv), hg,
          lookupKey_appendToKey, if_pos rfl]
        by_cases hgu : groupOf us k = []
        · rw [if_pos hgu, if_neg (by simp), hgu]
        · rw [if_neg hgu, if_neg (by simp)]
          simp [List.append_assoc]
      · have hstep : buildGroups (u :: us) gs = buildGroups us (appendToKey gs k u) := by
          simp [buildGroups, hb]
        have hg : groupOf (u :: us) h = groupOf us h := by
          simp [groupOf, List.filter_cons, hb, hkh]
        rw [hstep, ih _ (fun v hv hbv => hno v (by simp [hv]) hbv), hg,
          lookupKey_appendToKey, if_neg hkh]

/-! ## Lemmas: the deduplicated output, one URL per group -/

theorem filterMap_pick_cons {g : String × List String} {gs : Groups} {m : String}
    (h : pickGroup g.2 = some m) :
    (g :: gs).filterMap (fun g => pickGroup g.2)
      = m :: gs.filterMap (fun g => pickGroup g.2) := by
  simp [List.filterMap_cons, h]

theorem outputs_map_keyOf : ∀ {gs : Groups},
    (∀ g ∈ gs, g.2 ≠ [] ∧ ∀ v ∈ g.2, keyOf v = g.1) →
    (gs.filterMap (fun g => pickGroup g.2)).map keyOf = gs.map Prod.fst := by
  intro gs
  induction gs with
  | nil => intro _; simp
  | cons g rest ih =>
    intro hmem
    obtain ⟨hne, hkey⟩ := hmem g (by simp)
    obtain ⟨m, hpick, hm⟩ := pickGroup_total_mem hne
    rw [filterMap_pick_cons hpick, List.map_cons, List.map_cons,
      hkey m hm, ih (fun g' hg' => hmem g' (by simp [hg']))]

theorem nodup_keyOf_filter_unique (xs : List String) :
    ((filter_unique_images xs).map keyOf).Nodup := by
  obtain ⟨hnd, hmem⟩ := wf_buildGroups xs groupsWF_nil
  rw [show filter_unique_images xs
      = (buildGroups xs []).filterMap (fun g => pickGroup g.2) from rfl,
    outputs_map_keyOf hmem]
  exact hnd

theorem appendToKey_lookup_none {k u : String} :
    ∀ {gs : Groups}, lookupKey gs k = none →
      appendToKey gs k u = gs ++ [(k, [u])] := by
  intro gs
  induction gs with
  | nil => intro _; simp [appendToKey]
  | cons g rest ih =>
    intro h
    rw [lookupKey_cons] at h
    by_cases hg : g.1 = k
    · rw [if_pos hg] at h; simp at h
    · rw [if_neg hg] at h
      rw [appendToKey_cons, if_neg hg, ih h, List.cons_append]

theorem setKey_lookup_none {u : String} :
    ∀ {gs : Groups}, lookupKey gs u = none →
      setKey gs u = gs ++ [(u, [u])] := by
  intro gs
  induction gs with
  | nil => intro _; simp [setKey]
  | cons g rest ih =>
    intro h
    rw [lookupKey_cons] at h
    by_cases hg : g.1 = u
    · rw [if_pos hg] at h; simp at h
    · rw [if_neg hg] at h
      rw [setKey_cons, if_neg hg, ih h, List.cons_append]

theorem lookupKey_append_one :
    ∀ (gs : Groups) (k : String) (v : List String) (h : String),
      lookupKey (gs ++ [(k, v)]) h =
        match lookupKey gs h with
        | some vs => some vs
        | none => if k = h then some v else none := by
  intro gs
  induction gs with
  | nil => intro k v h; simp [lookupKey]
  | cons g rest ih =>
    intro k v h
    rw [List.cons_append, lookupKey_cons, lookupKey_cons]
    by_cases hg : g.1 = h
    · rw [if_pos hg, if_pos hg]
    · rw [if_neg hg, if_neg hg, ih]

theorem buildGroups_fresh :
    ∀ (ys : List String) (gs : Groups), (ys.map keyOf).Nodup →
      (∀ y ∈ ys, lookupKey gs (keyOf y) = none) →
      buildGroups ys gs = gs ++ ys.map (fun y => (keyOf y, [y])) := by
  intro ys
  induction ys with
  | nil => intro gs _ _; simp [buildGroups]
  | cons y ys ih =>
    intro gs hnd hfresh
    rw [List.map_cons, List.nodup_cons] at hnd
    have hy : lookupKey gs (keyOf y) = none := hfresh y (by simp)
    have hstep : buildGroups (y :: ys) gs = buildGroups ys (gs ++ [(keyOf y, [y])]) := by
      rcases hb : base_id y with _ | k
      · have hk : keyOf y = y := by simp [keyOf, hb]
        rw [hk] at hy
        have h1 : buildGroups (y :: ys) gs = buildGroups ys (setKey gs y) := by
          simp [buildGroups, hb]
        rw [h1, setKey_lookup_none hy, hk]
      · have hk : keyOf y = k := by simp [keyOf, hb]
        rw [hk] at hy
        have h1 : buildGroups (y :: ys) gs = buildGroups ys (appendToKey gs k y) := by
          simp [buildGroups, hb]
        rw [h1, appendToKey_lookup_none hy, hk]
    rw [hstep, ih _ hnd.2 ?_]
    · rw [List.map_cons, List.append_assoc, List.singleton_append]
    · intro y' hy'
      rw [lookupKey_append_one, hfresh y' (by simp [hy'])]
      have hne : keyOf y ≠ keyOf y' := by
        intro hcon
        exact hnd.1 (hcon ▸ List.mem_map_of_mem keyOf hy')
      simp [hne]

theorem pickGroup_singleton (y : String) : pickGroup [y] = some y := by
  simp [pickGroup]

theorem filter_unique_of_nodup {ys : List String}
    (hnd : (ys.map keyOf).Nodup) : filter_unique_images ys = ys := by
  rw [show filter_unique_images ys
      = (buildGroups ys []).filterMap (fun g => pickGroup g.2) from rfl,
    buildGroups_fresh ys [] hnd (fun y _ => rfl)]
  rw [List.nil_append, List.filterMap_map]
  have hcomp : ((fun g => pickGroup g.2) ∘ fun y => (keyOf y, [y])) = some := by
    funext y
    exact pickGroup_singleton y
  rw [hcomp, List.filterMap_some]

theorem outputs_filter_of_not_mem :
    ∀ {gs : Groups} {h : String},
      (∀ g ∈ gs, g.2 ≠ [] ∧ ∀ v ∈ g.2, keyOf v = g.1) →
      h ∉ gs.map Prod.fst →
      (gs.filterMap (fun g => pickGroup g.2)).filter
        (fun o => decide (base_id o = some h)) = [] := by
  intro gs
  induction gs with
  | nil => intro h _ _; simp
  | cons g rest ih =>
    intro h hmem hnot
    obtain ⟨hne, hkey⟩ := hmem g (by simp)
    obtain ⟨m, hpick, hm⟩ := pickGroup_total_mem hne
    have hgh : g.1 ≠ h := by
      intro hg
      exact hnot (by rw [List.map_cons, hg]; exact List.mem_cons_self _ _)
    have hbm : decide (base_id m = some h) = false := by
      apply decide_eq_false
      intro hb
      have hk := hkey m hm
      rw [keyOf, hb] at hk
      simp at hk
      exact hgh hk.symm
    rw [filterMap_pick_cons hpick, List.filter_cons, hbm, if_neg (by simp)]
    exact ih (fun g' hg' => hmem g' (by simp [hg']))
      (fun hcon => hnot (by rw [List.map_cons]; exact List.mem_cons_of_mem _ hcon))

theorem outputs_filter_of_lookup :
    ∀ {gs : Groups} {h : String} {vs : List String},
      GroupsWF gs → lookupKey gs h = some vs →
      (∀ v ∈ vs, base_id v = some h) →
      ∃ m, pickGroup vs = some m ∧
        (gs.filterMap (fun g => pickGroup g.2)).filter
          (fun o => decide (base_id o = some h)) = [m] := by
  intro gs
  induction gs with
  | nil => intro h vs _ hlk _; simp [lookupKey] at hlk
  | cons g rest ih =>
    intro h vs hwf hlk hmatch
    obtain ⟨hnd, hmem⟩ := hwf
    rw [List.map_cons, List.nodup_cons] at hnd
    obtain ⟨hne, hkey⟩ := hmem g (by simp)
    obtain ⟨m0, hpick0, hm0⟩ := pickGroup_total_mem hne
    rw [lookupKey_cons] at hlk
    by_cases hgh : g.1 = h
    · rw [if_pos hgh] at hlk
      have hvs : vs = g.2 := (Option.some_injective _ hlk).symm
      subst hvs
      refine ⟨m0, hpick0, ?_⟩
      rw [filterMap_pick_cons hpick0, List.filter_cons]
      have hbm : decide (base_id m0 = some h) = true := by
        simp [hmatch m0 hm0]
      rw [hbm, if_pos rfl,
        outputs_filter_of_not_mem (fun g' hg' => hmem g' (by simp [hg']))
          (hgh ▸ hnd.1)]
    · rw [if_neg hgh] at hlk
      have hrest : GroupsWF rest := ⟨hnd.2, fun g' hg' => hmem g' (by simp [hg'])⟩
      obtain ⟨m, hpick, hfil⟩ := ih hrest hlk hmatch
      refine ⟨m, hpick, ?_⟩
      rw [filterMap_pick_cons hpick0, List.filter_cons]
      have hbm0 : decide (base_id m0 = some h) = false := by
        apply decide_eq_false
        intro hb
        have hk := hkey m0 hm0
        rw [keyOf, hb] at hk
        simp at hk
        exact hgh hk.symm
      rw [hbm0, if_neg (by simp)]
      exact hfil

theorem keysDisjoint_spec {xs : List String} (hd : keysDisjoint xs = true) :
    ∀ u ∈ xs, base_id u = none → ∀ v ∈ xs, ∀ h, base_id v = some h → u ≠ h := by
  intro u hu hbu v hv h hbv
  rw [keysDisjoint, List.all_eq_true] at hd
  have h1 := hd u hu
  rw [Bool.or_eq_true] at h1
  rcases h1 with h1 | h1
  · rw [hbu] at h1; simp at h1
  · rw [List.all_eq_true] at h1
    have h2 := h1 v hv
    rw [hbv] at h2
    simpa using h2

/-! ## Lemmas: shape of the synthesized CDN URLs -/

theorem takeExact_spec {p : Char → Bool} :
    ∀ {n : Nat} {cs t r : List Char}, takeExact p n cs = some (t, r) →
      t.length = n ∧ t.all p = true := by
  intro n
  induction n with
  | zero =>
    intro cs t r h
    simp [takeExact] at h
    rw [h.1]
    simp
  | succ n ih =>
    intro cs t r h
    cases cs with
    | nil => simp [takeExact] at h
    | cons c cs' =>
      simp only [takeExact] at h
      by_cases hp : p c
      · rw [if_pos hp] at h
        cases hm : takeExact p n cs' with
        | none => rw [hm] at h; simp at h
        | some pr =>
          rw [hm] at h
          simp only [Option.map_some'] at h
          have h2 := Option.some_injective _ h
          rw [Prod.mk.injEq] at h2
          obtain ⟨ht, hr⟩ := h2
          obtain ⟨hl, ha⟩ := ih (t := pr.1) (r := pr.2) (by rw [hm])
          rw [← ht]
          exact ⟨by simp [hl], by simp [hp, ha]⟩
      · rw [if_neg hp] at h
        simp at h

theorem matchCdnAt_shape {cs hx e rest : List Char}
    (h : matchCdnAt cs = some (hx, e, rest)) :
    hx.length = 32 ∧ hx.all isLowerHex = true ∧ e ∈ extAlternatives := by
  unfold matchCdnAt at h
  split at h
  · dsimp only at h
    cases hm : takeExact isLowerHex 32 (cs.drop cdnHead.length) with
    | none => rw [hm] at h; simp at h
    | some pr =>
      rw [hm] at h
      obtain ⟨t, r2⟩ := pr
      simp only at h
      split at h
      · split at h
        · simp at h
        · split at h
          · split at h
            · rename_i e' hext
              have h3 := Option.some_injective _ h
              rw [Prod.mk.injEq, Prod.mk.injEq] at h3
              obtain ⟨hhx, hee, -⟩ := h3
              obtain ⟨hl, ha⟩ := takeExact_spec hm
              unfold extAt at hext
              have hmem := List.mem_of_find?_eq_some hext
              exact ⟨hhx ▸ hl, hhx ▸ ha, hee ▸ hmem⟩
            · simp at h
          · simp at h
      · simp at h
  · simp at h

theorem findAllCdnAux_shape :
    ∀ {fuel : Nat} {cs : List Char} {p : List Char × List Char},
      p ∈ findAllCdnAux fuel cs →
      ∃ cs' rest, matchCdnAt cs' = some (p.1, p.2, rest) := by
  intro fuel
  induction fuel with
  | zero => intro cs p hp; simp [findAllCdnAux] at hp
  | succ fuel ih =>
    intro cs p hp
    cases cs with
    | nil => simp [findAllCdnAux] at hp
    | cons c cs' =>
      simp only [findAllCdnAux] at hp
      cases hm : matchCdnAt (c :: cs') with
      | some trip =>
        obtain ⟨h1, e1, r1⟩ := trip
        rw [hm] at hp
        rcases List.mem_cons.mp hp with heq | hp'
        · exact ⟨c :: cs', r1, by rw [hm, heq]⟩
        · exact ih hp'
      | none =>
        rw [hm] at hp
        exact ih hp

theorem zillowPhotoScan_shape {html u : String}
    (hu : u ∈ zillowPhotoScan html) :
    ∃ hx e, u = synthMax hx e ∧ hx.length = 32 ∧
      hx.all isLowerHex = true ∧ e ∈ extAlternatives := by
  obtain ⟨p, hp, hsyn⟩ := List.mem_map.mp hu
  obtain ⟨cs', rest, hm⟩ := findAllCdnAux_shape hp
  obtain ⟨hl, ha, he⟩ := matchCdnAt_shape hm
  exact ⟨p.1, p.2, hsyn.symm, hl, ha, he⟩

/-! ## Lemmas: `dedupFirst` is a valid `list(set(...))` behaviour -/

theorem dedupFirst_nodup : ∀ (xs : List String), (dedupFirst xs).Nodup := by
  intro xs
  induction xs with
  | nil => simp [dedupFirst]
  | cons x xs ih =>
    simp only [dedupFirst]
    rw [List.nodup_cons]
    constructor
    · intro hmem
      have := (List.mem_filter.mp hmem).2
      simp at this
    · exact List.Nodup.filter _ ih

theorem mem_dedupFirst : ∀ (xs : List String) (a : String),
    a ∈ dedupFirst xs ↔ a ∈ xs := by
  intro xs
  induction xs with
  | nil => intro a; simp [dedupFirst]
  | cons x xs ih =>
    intro a
    simp only [dedupFirst, List.mem_cons]
    constructor
    · intro h
      rcases h with h | h
      · exact Or.inl h
      · exact Or.inr ((ih a).mp (List.mem_filter.mp h).1)
    · intro h
      rcases h with h | h
      · exact Or.inl h
      · by_cases hax : a = x
        · exact Or.inl hax
        · refine Or.inr (List.mem_filter.mpr ⟨(ih a).mpr h, ?_⟩)
          simp [hax]

theorem setModel_dedupFirst : SetModel dedupFirst :=
  fun xs => ⟨dedupFirst_nodup xs, fun a => mem_dedupFirst xs a⟩

theorem setModel_dedupFirst_rev : SetModel (fun xs => (dedupFirst xs).reverse) := by
  intro xs
  refine ⟨List.nodup_reverse.mpr (dedupFirst_nodup xs), ?_⟩
  intro a
  rw [List.mem_reverse]
  exact mem_dedupFirst xs a

/-! ## Claim theorems -/

/-- Claim C1, counterexample: as stated, the claim is false.  For the
input `[urlA5, hexA]` — a matched URL followed by a candidate with no
parseable identity that happens to equal the group's 32-hex identifier —
the assignment `image_groups[url] = [url]` overwrites the identity
group, so `resolve_unique` returns no member of the (non-empty) group at
all, rather than exactly one. -/
theorem C1_counterexample :
    groupOf cexList hexA = [urlA5] ∧
    (filter_unique_images cexList).filter
      (fun o => decide (base_id o = some hexA)) = [] := by
  constructor <;> decide

/-- Claim C1 (amended with the proviso `keysDisjoint`, forced by the
counterexample): for every 32-hex asset identity `h` with a non-empty
candidate group, provided no candidate without a parseable identity
equals a group identifier, `resolve_unique` returns exactly one member
of the group, namely the member with the maximal parseable resolution
token (a member with no parseable token counting as 0), and on ties the
first-encountered member in input order. -/
theorem C1_group_first_max (xs : List String) (h : String)
    (hd : keysDisjoint xs = true) (hne : groupOf xs h ≠ []) :
    ∃ m pre suf,
      (filter_unique_images xs).filter
        (fun o => decide (base_id o = some h)) = [m] ∧
      groupOf xs h = pre ++ m :: suf ∧
      (∀ v ∈ pre, resOf v < resOf m) ∧
      ∀ v ∈ groupOf xs h, resOf v ≤ resOf m := by
  have hno : ∀ u ∈ xs, base_id u = none → u ≠ h := by
    obtain ⟨v, hv⟩ := List.exists_mem_of_ne_nil _ hne
    have hvf := List.mem_filter.mp hv
    intro u hu hbu
    exact keysDisjoint_spec hd u hu hbu v hvf.1 h (by simpa using hvf.2)
  have hlk := buildGroups_lookup xs [] hno
  rw [if_neg hne] at hlk
  have hlk2 : lookupKey (buildGroups xs []) h = some (groupOf xs h) := by
    rw [hlk]; simp [lookupKey]
  have hmatch : ∀ v ∈ groupOf xs h, base_id v = some h := by
    intro v hv
    simpa using (List.mem_filter.mp hv).2
  obtain ⟨m, hpick, hfil⟩ :=
    outputs_filter_of_lookup (wf_buildGroups xs groupsWF_nil) hlk2 hmatch
  obtain ⟨m', pre, suf, hsel, hdec, hpre, hmax⟩ := select_spec (groupOf xs h) hne
  have hmm : m = m' := by
    rw [pickGroup_eq_select hne, hsel] at hpick
    exact (Option.some_injective _ hpick).symm
  subst hmm
  exact ⟨m, pre, suf, hfil, hdec, hpre, hmax⟩

/-- Claim C1, witness: the amended theorem applied to the concrete
two-member family `[fam192, fam768]` with identity `famId`. -/
theorem C1_witness :
    ∃ m pre suf,
      (filter_unique_images [fam192, fam768]).filter
        (fun o => decide (base_id o = some famId)) = [m] ∧
      groupOf [fam192, fam768] famId = pre ++ m :: suf ∧
      (∀ v ∈ pre, resOf v < resOf m) ∧
      ∀ v ∈ groupOf [fam192, fam768] famId, resOf v ≤ resOf m :=
  C1_group_first_max [fam192, fam768] famId (by decide) (by decide)

/-- Claim C2: `resolve_unique` (`filter_unique_images`) is idempotent —
applying it twice yields the same list as applying it once, for every
input list of URL strings. -/
theorem C2_resolve_unique_idempotent (xs : List String) :
    filter_unique_images (filter_unique_images xs) = filter_unique_images xs :=
  filter_unique_of_nodup (nodup_keyOf_filter_unique xs)

/-- Claim C10: `select_highest_resolution` is total and sound on every
non-empty list (it returns `some` member of its input, never reaching
the raising branch modelled by `none`), every group the deduplication
loop builds is non-empty (so the empty-input failure branch is
unreachable from `filter_unique_images`), and consequently the output
has exactly one URL per group. -/
theorem C10_select_sound (xs0 : List String) :
    (∀ urls : List String, urls ≠ [] →
      ∃ m, select_highest_resolution urls = some m ∧ m ∈ urls) ∧
    (∀ g ∈ buildGroups xs0 [], g.2 ≠ []) ∧
    (filter_unique_images xs0).length = (buildGroups xs0 []).length := by
  refine ⟨?_, ?_, ?_⟩
  · intro urls hne
    obtain ⟨m, pre, suf, hsel, hdec, -, -⟩ := select_spec urls hne
    exact ⟨m, hsel, by rw [hdec]; simp⟩
  · intro g hg
    exact ((wf_buildGroups xs0 groupsWF_nil).2 g hg).1
  · have hmap := outputs_map_keyOf (wf_buildGroups xs0 groupsWF_nil).2
    have hlen := congrArg List.length hmap
    rw [List.length_map, List.length_map] at hlen
    exact hlen

/-- Claim C10, witness: the theorem instantiated at the one-element list
`[hexA]`, whose single group is the self-keyed `(hexA, [hexA])`. -/
theorem C10_witness :
    (∃ m, select_highest_resolution [hexA] = some m ∧ m ∈ [hexA]) ∧
    ((hexA, [hexA]).2 ≠ []) :=
  ⟨(C10_select_sound []).1 [hexA] (by decide),
   (C10_select_sound [hexA]).2.1 (hexA, [hexA]) (by decide)⟩

/-- Claim C5: the URL classifier never raises on malformed input — the
empty string and any non-string value (`is_image_url_of none`) yield
`false` — and classifies the three example URLs as the specification
states. -/
theorem C5_classifier_cases :
    is_image_url "https://example.com/a.jpg" = true ∧
    is_image_url "https://photos.zillowstatic.com/fp/abcdabcdabcdabcdabcdabcdabcdabcd-cc_ft_768.jpg" = true ∧
    is_image_url "https://example.com/page.html" = false ∧
    is_image_url "" = false ∧
    is_image_url_of none = false := by
  refine ⟨?_, ?_, ?_, ?_, rfl⟩ <;> decide

set_option maxRecDepth 8192 in
/-- Claim C4: every URL the markup fallback's raw-text CDN scan produces
is synthesized at the maximum resolution size 1536 (whatever size stood
in the markup), with a 32-hex identifier and a recognized extension; and
on markup carrying three `cc_ft_` variants of one identity at sizes 192,
768 and 1536, the Markup Fallback Extractor returns exactly the one URL
synthesized at size 1536. -/
theorem C4_fallback_synthesizes_max :
    (∀ (html u : String), u ∈ zillowPhotoScan html →
      ∃ hx e, u = synthMax hx e ∧ hx.length = 32 ∧
        hx.all isLowerHex = true ∧ e ∈ extAlternatives) ∧
    extract_images_from_html [] markupC4 = [fam1536] := by
  constructor
  · intro html u hu
    exact zillowPhotoScan_shape hu
  · decide

set_option maxRecDepth 8192 in
/-- Claim C4, witness: the universal part applied to the concrete markup
`markupC4` and its synthesized output URL. -/
theorem C4_witness :
    ∃ hx e, fam1536 = synthMax hx e ∧ hx.length = 32 ∧
      hx.all isLowerHex = true ∧ e ∈ extAlternatives :=
  C4_fallback_synthesizes_max.1 markupC4 fam1536 (by decide)

set_option maxRecDepth 8192 in
/-- Claim C3: the fetch/upload orchestrator isolates per-item failures.
For a batch of three URLs where fetching the second raises a network
error (and uploads succeed), it processes all three (total 3), succeeds
on the first and third (succeeded 2), and the failure log carries
exactly one record for the failed item, a non-empty line containing the
error detail. -/
theorem C3_per_item_failure_isolated
    (fetch : String → Except String (List Nat)) (putOk : String → List Nat → Bool)
    (u1 u2 u3 lid bkt envB msg : String) (b1 b3 : List Nat)
    (h1 : fetch u1 = Except.ok b1) (h2 : fetch u2 = Except.error msg)
    (h3 : fetch u3 = Except.ok b3) (hput : ∀ k b, putOk k b = true) :
    (download_and_upload_to_s3 fetch putOk [u1, u2, u3] lid (some bkt) envB).1.total = 3 ∧
    (download_and_upload_to_s3 fetch putOk [u1, u2, u3] lid (some bkt) envB).1.success = 2 ∧
    (download_and_upload_to_s3 fetch putOk [u1, u2, u3] lid (some bkt) envB).2 =
      ["✗ Error processing " ++ u2 ++ ": " ++ msg] ∧
    ("✗ Error processing " ++ u2 ++ ": " ++ msg) ≠ "" := by
  refine ⟨?_, ?_, ?_, ?_⟩
  · simp [download_and_upload_to_s3]
  · simp [download_and_upload_to_s3, uploadLoop, h1, h2, h3, hput]
  · simp [download_and_upload_to_s3, uploadLoop, h1, h2, h3, hput]
  · intro hcon
    have hlen := congrArg String.length hcon
    rw [String.length_append, String.length_append, String.length_append] at hlen
    have h19 : ("✗ Error processing ").length = 19 := by decide
    have hc : (": ").length = 2 := by decide
    have h0 : ("" : String).length = 0 := rfl
    rw [h19, hc, h0] at hlen
    omega

/-- Claim C3, witness: the theorem applied to a concrete batch whose
second fetch fails with message `boom`. -/
theorem C3_witness :
    (download_and_upload_to_s3
      (fun u => if u = "https://h/b.jpg" then Except.error "boom" else Except.ok [7])
      (fun _ _ => true)
      ["https://h/a.jpg", "https://h/b.jpg", "https://h/c.png"]
      "lid" (some "bkt") "env").1.total = 3 ∧
    (download_and_upload_to_s3
      (fun u => if u = "https://h/b.jpg" then Except.error "boom" else Except.ok [7])
      (fun _ _ => true)
      ["https://h/a.jpg", "https://h/b.jpg", "https://h/c.png"]
      "lid" (some "bkt") "env").1.success = 2 ∧
    (download_and_upload_to_s3
      (fun u => if u = "https://h/b.jpg" then Except.error "boom" else Except.ok [7])
      (fun _ _ => true)
      ["https://h/a.jpg", "https://h/b.jpg", "https://h/c.png"]
      "lid" (some "bkt") "env").2 =
      ["✗ Error processing " ++ "https://h/b.jpg" ++ ": " ++ "boom"] ∧
    ("✗ Error processing " ++ "https://h/b.jpg" ++ ": " ++ "boom") ≠ "" :=
  C3_per_item_failure_isolated
    (fun u => if u = "https://h/b.jpg" then Except.error "boom" else Except.ok [7])
    (fun _ _ => true)
    "https://h/a.jpg" "https://h/b.jpg" "https://h/c.png" "lid" "bkt" "env" "boom"
    [7] [7] rfl rfl rfl (fun _ _ => rfl)

/-- Claim C9: on a markup document with no embedded JSON payloads and no
recognizable image elements, the structured-data extractor finds nothing
(`none`), the markup fallback returns the empty sequence, the pipeline
output is empty, and the orchestrator on the empty URL list reports
total 0 and succeeded 0 (without any failure reachable). -/
theorem C9_empty_document :
    extract_json_from_page jsonLoads [] [] = none ∧
    extract_images_from_html [] htmlPlain = [] ∧
    (∀ setList : List String → List String,
      pipelineImageUrls jsonLoads setList [] [] [] htmlPlain = []) ∧
    ∀ (fetch : String → Except String (List Nat)) (putOk : String → List Nat → Bool)
      (lid : String) (bn : Option String) (envB : String),
      (download_and_upload_to_s3 fetch putOk [] lid bn envB).1.total = 0 ∧
      (download_and_upload_to_s3 fetch putOk [] lid bn envB).1.success = 0 ∧
      (download_and_upload_to_s3 fetch putOk [] lid bn envB).2 = [] := by
  refine ⟨rfl, by decide, ?_, ?_⟩
  · intro setList
    rfl
  · intro fetch putOk lid bn envB
    exact ⟨rfl, rfl, rfl⟩

/-- Claim C6: a parse failure on a single candidate fragment is swallowed
and extraction continues — with the failing script present the extractor
returns exactly what it returns without it — while total extraction
failure yields `none` (no exception), upon which the pipeline falls back
to the Markup Fallback Extractor. -/
theorem C6_parse_failure_isolated :
    extract_json_from_page jsonLoads [] [scriptBad] = none ∧
    extract_json_from_page jsonLoads [] [scriptBad, scriptC7] =
      extract_json_from_page jsonLoads [] [scriptC7] ∧
    extract_json_from_page jsonLoads [] [scriptC7] = some payloadC7 ∧
    ∀ (loads : String → Option Json) (setList : List String → List String)
      (typed allS soup : List String) (html : String),
      extract_json_from_page loads typed allS = none →
      pipelineImageUrls loads setList typed allS soup html =
        extract_images_from_html soup html := by
  refine ⟨rfl, rfl, rfl, ?_⟩
  intro loads setList typed allS soup html hnone
  simp [pipelineImageUrls, hnone]

/-- Claim C6, witness: the fallback clause applied to the concrete page
whose only script yields no parseable payload. -/
theorem C6_witness :
    pipelineImageUrls jsonLoads dedupFirst [] [scriptBad] [] htmlPlain =
      extract_images_from_html [] htmlPlain :=
  C6_parse_failure_isolated.2.2.2 jsonLoads dedupFirst [] [scriptBad] [] htmlPlain rfl

/-- Claim C7: from the structured-data payload
`{"photos":[{"url":"https://x/a.jpg"},{"href":"https://x/b.png"}]}`
embedded in a script block, the extractor recovers the payload and its
output contains both URLs, whichever prioritized field name (`url` or
`href`) carried each one, for every valid `list(set(...))`
enumeration. -/
theorem C7_both_fields_extracted (setList : List String → List String)
    (hset : SetModel setList) :
    extract_json_from_page jsonLoads [] [scriptC7] = some payloadC7 ∧
    urlXa ∈ extract_image_urls setList payloadC7 ∧
    urlXb ∈ extract_image_urls setList payloadC7 := by
  have hcoll : collectImages payloadC7 = [urlXa, urlXa, urlXb, urlXb] := by decide
  refine ⟨rfl, ?_, ?_⟩
  · rw [show extract_image_urls setList payloadC7
        = setList (collectImages payloadC7) from rfl, hcoll]
    exact ((hset _).2 urlXa).mpr (by decide)
  · rw [show extract_image_urls setList payloadC7
        = setList (collectImages payloadC7) from rfl, hcoll]
    exact ((hset _).2 urlXb).mpr (by decide)

/-- Claim C7, witness: the theorem at the concrete enumeration
`dedupFirst`. -/
theorem C7_witness :
    extract_json_from_page jsonLoads [] [scriptC7] = some payloadC7 ∧
    urlXa ∈ extract_image_urls dedupFirst payloadC7 ∧
    urlXb ∈ extract_image_urls dedupFirst payloadC7 :=
  C7_both_fields_extracted dedupFirst setModel_dedupFirst

/-- Claim C8: the pipeline's output order is *not* a function of the
input markup alone.  Two valid behaviours of `list(set(...))` — both
duplicate-free enumerations of the same members, as produced under
different interpreter hash seeds — give different ordered outputs on the
same markup, refuting run-to-run determinism of the ordered list. -/
theorem C8_order_not_deterministic :
    SetModel dedupFirst ∧ SetModel (fun xs => (dedupFirst xs).reverse) ∧
    pipelineImageUrls jsonLoads dedupFirst [] [scriptC7] [] htmlPlain ≠
      pipelineImageUrls jsonLoads (fun xs => (dedupFirst xs).reverse)
        [] [scriptC7] [] htmlPlain := by
  refine ⟨setModel_dedupFirst, setModel_dedupFirst_rev, ?_⟩
  decide

end Scraper
